import Mathlib

/-!
Shallow embedding of the `ttfhe` LWE/GLWE homomorphic-encryption core
(`src/lib.rs`, `src/lwe.rs`, `src/glwe.rs`) and verification of its
specification claims.

Machine integers (`u64`) are embedded as `Nat` with explicit reduction
modulo `2^64` wherever the Rust code wraps.  Randomness consumed by the
Rust functions (uniform mask draws, rounded Gaussian noise) is passed in
explicitly as arguments.  Fixed-size arrays `[u64; LWE_DIM]` are embedded
as lists; theorems carry the length side conditions the array types give
for free in Rust.
-/

/-- The value `2^64`, the implicit modulus of all `u64` arithmetic. -/
def M : Nat := 2 ^ 64

/-- Number of gadget digits (`pub const ELL: u8 = 2` in `src/lib.rs`). -/
def ELL : Nat := 2

/-- Modelled from the spec: the constant `LWE_DIM` is declared outside the
provided sources (only `src/lwe.rs` uses it).  The `modswitch` comment in
`src/lwe.rs` fixes the reduced modulus `2 * LWE_DIM = 2N = 2^11` with
`N = 1024`, so `LWE_DIM = 1024`. -/
def LWE_DIM : Nat := 1024

/-- Embeds `u64::wrapping_add`. -/
def wadd (a b : Nat) : Nat := (a + b) % M

/-- Embeds `u64::wrapping_sub`: `(a - b) mod 2^64`, total on `Nat`. -/
def wsub (a b : Nat) : Nat := (a % M + (M - b % M)) % M

/-- Embeds `u64::wrapping_mul`. -/
def wmul (a b : Nat) : Nat := (a * b) % M

/-- Embeds `u64::wrapping_add_signed` with an `i64` argument: `(a + e) mod 2^64`. -/
def wrapAddSigned (a : Nat) (e : Int) : Nat := (((a : Int) + e) % (M : Int)).toNat

namespace lwe

/-- The type `LweCiphertext { mask: [u64; LWE_DIM], body: u64 }` from `src/lwe.rs`. -/
structure LweCiphertext where
  mask : List Nat
  body : Nat
  deriving Repr, DecidableEq

/-- The list of per-coordinate products `a_j * s_j` computed (as unchecked
`u64` multiplications) inside `encrypt` and `decrypt`. -/
def dotProdTerms (mask sk : List Nat) : List Nat :=
  (mask.zip sk).map fun p => p.1 * p.2

/-- The wrapping dot product `⟨mask, sk⟩ mod 2^64`: each `u64` product
wraps, and the products are summed via `Wrapping<u64>`. -/
def dot (mask sk : List Nat) : Nat :=
  (((dotProdTerms mask sk).map fun t => t % M).sum) % M

/-- Embeds `LweCiphertext::encrypt`.  The uniformly drawn mask and the rounded
Gaussian noise sample `e` are passed explicitly. -/
def LweCiphertext.encrypt (mu : Nat) (sk : List Nat) (mask : List Nat) (e : Int) :
    LweCiphertext :=
  let muStar := wrapAddSigned mu e
  let body := wadd (dot mask sk) muStar
  { mask := mask, body := body }

/-- Embeds `LweCiphertext::decrypt`: recomputes `⟨mask, sk⟩` and subtracts it
from the body with wrapping subtraction. -/
def LweCiphertext.decrypt (c : LweCiphertext) (sk : List Nat) : Nat :=
  wsub c.body (dot c.mask sk)

/-- Embeds `LweCiphertext::decrypt_modswitched`: the dot product is accumulated
modulo `2*LWE_DIM`, only key bits equal to 1 contribute, and the wrapping
subtraction is reduced modulo `2*LWE_DIM`. -/
def LweCiphertext.decrypt_modswitched (c : LweCiphertext) (sk : List Nat) : Nat :=
  let dotProd := (c.mask.zip sk).foldl
    (fun acc p => if p.2 == 1 then (acc + p.1) % (2 * LWE_DIM) else acc) 0
  wsub c.body dotProd % (2 * LWE_DIM)

/-- Embeds `LweCiphertext::add`: componentwise wrapping addition. -/
def LweCiphertext.add (a b : LweCiphertext) : LweCiphertext :=
  { mask := List.zipWith wadd a.mask b.mask, body := wadd a.body b.body }

/-- Embeds `LweCiphertext::sub`: componentwise wrapping subtraction. -/
def LweCiphertext.sub (a b : LweCiphertext) : LweCiphertext :=
  { mask := List.zipWith wsub a.mask b.mask, body := wsub a.body b.body }

/-- Embeds `LweCiphertext::multiply_constant_assign`: scales mask and body by a
constant with wrapping multiplication (the Rust method mutates `self` and
returns the updated value; here it is the returned value). -/
def LweCiphertext.multiply_constant_assign (c : LweCiphertext) (constant : Nat) :
    LweCiphertext :=
  { mask := c.mask.map fun a => wmul a constant, body := wmul c.body constant }

/-- Embeds `encode` in `src/lwe.rs`: `(msg as u64) << 60`. -/
def encode (msg : Nat) : Nat := (msg <<< 60) % M

/-- Embeds `decode` in `src/lwe.rs`: `((((mu >> 59) + 1) >> 1) % 16) as u8`. -/
def decode (mu : Nat) : Nat := (((mu >>> 59) + 1) >>> 1) % 16

end lwe

lemma M_pos : 0 < M := by norm_num [M]

lemma wrapAddSigned_lt (a : Nat) (e : Int) : wrapAddSigned a e < M := by
  unfold wrapAddSigned
  have h1 : (0 : Int) < (M : Int) := by exact_mod_cast M_pos
  have h2 := Int.emod_lt_of_pos ((a : Int) + e) h1
  omega

lemma dot_lt (mask sk : List Nat) : lwe.dot mask sk < M :=
  Nat.mod_lt _ M_pos

/-- C1: LWE decryption inverts encryption up to the noise term: for every
binary secret key, message, mask draw and rounded Gaussian noise `e`,
`decrypt (encrypt mu sk) sk = mu ⊞ e` (wrapping signed addition mod `2^64`). -/
theorem lwe_decrypt_encrypt (mu : Nat) (sk mask : List Nat) (e : Int)
    (hsk : ∀ s ∈ sk, s = 0 ∨ s = 1) (hlen : sk.length = mask.length)
    (he₁ : -(2 ^ 63) ≤ e) (he₂ : e < 2 ^ 63) :
    (lwe.LweCiphertext.encrypt mu sk mask e).decrypt sk = wrapAddSigned mu e := by
  have hD := dot_lt mask sk
  have hw := wrapAddSigned_lt mu e
  simp only [lwe.LweCiphertext.encrypt, lwe.LweCiphertext.decrypt, wadd, wsub]
  generalize lwe.dot mask sk = d at *
  generalize wrapAddSigned mu e = w at *
  simp only [M] at hD hw ⊢
  omega

theorem lwe_decrypt_encrypt_witness :
    (∀ s ∈ [1, 0], s = 0 ∨ s = 1) ∧
      (lwe.LweCiphertext.encrypt 7 [1, 0] [5, 9] (-3)).decrypt [1, 0] =
        wrapAddSigned 7 (-3) :=
  ⟨by decide, lwe_decrypt_encrypt 7 [1, 0] [5, 9] (-3) (by decide) (by decide)
    (by decide) (by decide)⟩

lemma decode_encode_noise (m : Nat) (e : Int) (hm : m < 16)
    (he₁ : -(2 ^ 59) < e) (he₂ : e < 2 ^ 59) :
    lwe.decode (wrapAddSigned (lwe.encode m) e) = m := by
  simp only [lwe.decode, lwe.encode, wrapAddSigned, Nat.shiftLeft_eq,
    Nat.shiftRight_eq_div_pow, M]
  omega

/-- C2: the LWE-domain encode/decode pair round-trips and tolerates any
noise `e` with `|e| < 2^59`: `decode (encode m ⊞ e) = m` for `m < 16`, and
in particular `decode (encode m) = m`. -/
theorem lwe_encode_decode_roundtrip (m : Nat) (e : Int) (hm : m < 16)
    (he₁ : -(2 ^ 59) < e) (he₂ : e < 2 ^ 59) :
    lwe.decode (wrapAddSigned (lwe.encode m) e) = m ∧
      lwe.decode (lwe.encode m) = m := by
  refine ⟨decode_encode_noise m e hm he₁ he₂, ?_⟩
  simp only [lwe.decode, lwe.encode, Nat.shiftLeft_eq, Nat.shiftRight_eq_div_pow, M]
  omega

theorem lwe_encode_decode_roundtrip_witness :
    (3 < 16) ∧ lwe.decode (wrapAddSigned (lwe.encode 3) (-100)) = 3 ∧
      lwe.decode (lwe.encode 3) = 3 :=
  ⟨by decide, lwe_encode_decode_roundtrip 3 (-100) (by decide) (by decide) (by decide)⟩

instance : NeZero M := ⟨by norm_num [M]⟩

lemma wsub_lt (a b : Nat) : wsub a b < M := Nat.mod_lt _ M_pos

lemma natCast_wadd (a b : Nat) : ((wadd a b : Nat) : ZMod M) = (a : ZMod M) + b := by
  simp [wadd, ZMod.natCast_mod]

lemma natCast_wsub (a b : Nat) : ((wsub a b : Nat) : ZMod M) = (a : ZMod M) - b := by
  have hb : b % M ≤ M := le_of_lt (Nat.mod_lt _ M_pos)
  simp only [wsub, ZMod.natCast_mod, Nat.cast_add, Nat.cast_sub hb,
    ZMod.natCast_self, ZMod.natCast_mod]
  ring

lemma natCast_wmul (a b : Nat) : ((wmul a b : Nat) : ZMod M) = (a : ZMod M) * b := by
  simp [wmul, ZMod.natCast_mod]

lemma wadd_lt (a b : Nat) : wadd a b < M := Nat.mod_lt _ M_pos

lemma natCast_sum_mod (l : List Nat) :
    (((l.map fun t => t % M).sum % M : Nat) : ZMod M) =
      (l.map (Nat.cast : Nat → ZMod M)).sum := by
  rw [ZMod.natCast_mod, Nat.cast_list_sum, List.map_map]
  refine congrArg List.sum (List.map_congr_left ?_)
  intro t _
  simp [Function.comp, ZMod.natCast_mod]

/-- The dot product carried over to `ZMod 2^64`. -/
def dotZ (mask sk : List Nat) : ZMod M :=
  ((mask.zip sk).map fun p => (p.1 : ZMod M) * (p.2 : ZMod M)).sum

lemma natCast_dot (mask sk : List Nat) :
    ((lwe.dot mask sk : Nat) : ZMod M) = dotZ mask sk := by
  unfold lwe.dot lwe.dotProdTerms dotZ
  rw [natCast_sum_mod, List.map_map]
  refine congrArg List.sum (List.map_congr_left ?_)
  intro p _
  simp [Function.comp]

lemma natCast_decrypt (c : lwe.LweCiphertext) (sk : List Nat) :
    ((c.decrypt sk : Nat) : ZMod M) = (c.body : ZMod M) - dotZ c.mask sk := by
  rw [lwe.LweCiphertext.decrypt, natCast_wsub, natCast_dot]

lemma dotZ_zipWith_wadd (am bm sk : List Nat) (h : am.length = bm.length) :
    dotZ (List.zipWith wadd am bm) sk = dotZ am sk + dotZ bm sk := by
  induction am generalizing bm sk with
  | nil =>
    cases bm with
    | nil => simp [dotZ]
    | cons y ys => simp at h
  | cons x xs ih =>
    cases bm with
    | nil => simp at h
    | cons y ys =>
      cases sk with
      | nil => simp [dotZ]
      | cons s ss =>
        simp only [List.length_cons, Nat.succ_inj] at h
        simp only [List.zipWith_cons_cons, dotZ, List.zip_cons_cons,
          List.map_cons, List.sum_cons] at *
        rw [natCast_wadd, ih ys ss h]
        ring

lemma dotZ_zipWith_wsub (am bm sk : List Nat) (h : am.length = bm.length) :
    dotZ (List.zipWith wsub am bm) sk = dotZ am sk - dotZ bm sk := by
  induction am generalizing bm sk with
  | nil =>
    cases bm with
    | nil => simp [dotZ]
    | cons y ys => simp at h
  | cons x xs ih =>
    cases bm with
    | nil => simp at h
    | cons y ys =>
      cases sk with
      | nil => simp [dotZ]
      | cons s ss =>
        simp only [List.length_cons, Nat.succ_inj] at h
        simp only [List.zipWith_cons_cons, dotZ, List.zip_cons_cons,
          List.map_cons, List.sum_cons] at *
        rw [natCast_wsub, ih ys ss h]
        ring

lemma natCast_inj_of_lt {a b : Nat} (ha : a < M) (hb : b < M)
    (h : (a : ZMod M) = b) : a = b := by
  have h1 := ZMod.val_cast_of_lt ha
  have h2 := ZMod.val_cast_of_lt hb
  rw [← h1, ← h2, h]

/-- C3: homomorphic addition and subtraction commute exactly with
decryption: `decrypt (add a b) = decrypt a ⊞ decrypt b` and
`decrypt (sub a b) = decrypt a ⊟ decrypt b`, modulo `2^64`, for every
binary secret key and ciphertexts with equal-length masks. -/
theorem lwe_add_sub_homomorphic (a b : lwe.LweCiphertext) (sk : List Nat)
    (hsk : ∀ s ∈ sk, s = 0 ∨ s = 1) (hab : a.mask.length = b.mask.length) :
    (a.add b).decrypt sk = wadd (a.decrypt sk) (b.decrypt sk) ∧
      (a.sub b).decrypt sk = wsub (a.decrypt sk) (b.decrypt sk) := by
  constructor
  · refine natCast_inj_of_lt (wsub_lt _ _) (wadd_lt _ _) ?_
    rw [natCast_wadd, natCast_decrypt, natCast_decrypt, natCast_decrypt]
    simp only [lwe.LweCiphertext.add]
    rw [natCast_wadd, dotZ_zipWith_wadd a.mask b.mask sk hab]
    ring
  · refine natCast_inj_of_lt (wsub_lt _ _) (wsub_lt _ _) ?_
    rw [natCast_wsub, natCast_decrypt, natCast_decrypt, natCast_decrypt]
    simp only [lwe.LweCiphertext.sub]
    rw [natCast_wsub, dotZ_zipWith_wsub a.mask b.mask sk hab]
    ring

theorem lwe_add_sub_homomorphic_witness :
    (∀ s ∈ [1, 0], s = 0 ∨ s = 1) ∧
      ((lwe.LweCiphertext.mk [3, 4] 10).add (lwe.LweCiphertext.mk [5, 6] 2)).decrypt
          [1, 0] =
        wadd ((lwe.LweCiphertext.mk [3, 4] 10).decrypt [1, 0])
          ((lwe.LweCiphertext.mk [5, 6] 2).decrypt [1, 0]) ∧
      ((lwe.LweCiphertext.mk [3, 4] 10).sub (lwe.LweCiphertext.mk [5, 6] 2)).decrypt
          [1, 0] =
        wsub ((lwe.LweCiphertext.mk [3, 4] 10).decrypt [1, 0])
          ((lwe.LweCiphertext.mk [5, 6] 2).decrypt [1, 0]) :=
  ⟨by decide,
    (lwe_add_sub_homomorphic (lwe.LweCiphertext.mk [3, 4] 10)
        (lwe.LweCiphertext.mk [5, 6] 2) [1, 0] (by decide) (by decide)).1,
    (lwe_add_sub_homomorphic (lwe.LweCiphertext.mk [3, 4] 10)
        (lwe.LweCiphertext.mk [5, 6] 2) [1, 0] (by decide) (by decide)).2⟩

namespace lwe

/-- Loop body of `LweCiphertext::keyswitch`: iterates over the remaining
mask coordinates (suffix starting at source index `i`), indexing
`ksk[ELL*i]` and `ksk[ELL*i + 1]`; an out-of-bounds index is a Rust panic,
embedded as `none`.  The gadget-decomposition collaborator `decomp`
(`crate::ggsw::decomposition`, external to this slice) is a parameter. -/
def keyswitchLoop (decomp : Nat → Nat × Nat) (ksk : List LweCiphertext) :
    Nat → LweCiphertext → List Nat → Option LweCiphertext
  | _, acc, [] => some acc
  | i, acc, m :: ms =>
    if ELL * i + 1 < ksk.length then
      let k1 := ksk.getD (ELL * i) (LweCiphertext.mk [] 0)
      let k2 := ksk.getD (ELL * i + 1) (LweCiphertext.mk [] 0)
      keyswitchLoop decomp ksk (i + 1)
        ((acc.sub (k1.multiply_constant_assign (decomp m).1)).sub
          (k2.multiply_constant_assign (decomp m).2)) ms
    else none

/-- Embeds `LweCiphertext::keyswitch`: starts from `Self::default()` (all-zero
mask of the ciphertext dimension, body 0) with the body overwritten by
`self.body`, then runs the key-switching loop over all mask coordinates. -/
def LweCiphertext.keyswitch (decomp : Nat → Nat × Nat) (c : LweCiphertext)
    (ksk : List LweCiphertext) : Option LweCiphertext :=
  keyswitchLoop decomp ksk 0
    (LweCiphertext.mk (List.replicate c.mask.length 0) c.body) c.mask

/-- The fold the specification describes for `keyswitch`: starting from
`{mask: zero vector, body: ct.body}`, for each source coordinate `i` the
two gadget digits of `ct.mask[i]` scale the key-switching-key entries
`ksk[ELL*i]` and `ksk[ELL*i + 1]`, which are subtracted from the running
result. -/
def keyswitchSpec (decomp : Nat → Nat × Nat) (c : LweCiphertext)
    (ksk : List LweCiphertext) : LweCiphertext :=
  c.mask.enum.foldl
    (fun acc p =>
      (acc.sub ((ksk.getD (ELL * p.1) (LweCiphertext.mk [] 0)).multiply_constant_assign
          (decomp p.2).1)).sub
        ((ksk.getD (ELL * p.1 + 1) (LweCiphertext.mk [] 0)).multiply_constant_assign
          (decomp p.2).2))
    (LweCiphertext.mk (List.replicate c.mask.length 0) c.body)

end lwe

lemma keyswitchLoop_eq_foldl (decomp : Nat → Nat × Nat)
    (ksk : List lwe.LweCiphertext) (ms : List Nat) :
    ∀ (i : Nat) (acc : lwe.LweCiphertext),
      ELL * i + ELL * ms.length ≤ ksk.length →
      lwe.keyswitchLoop decomp ksk i acc ms =
        some ((ms.enumFrom i).foldl
          (fun acc p =>
            (acc.sub ((ksk.getD (ELL * p.1)
                (lwe.LweCiphertext.mk [] 0)).multiply_constant_assign
                (decomp p.2).1)).sub
              ((ksk.getD (ELL * p.1 + 1)
                (lwe.LweCiphertext.mk [] 0)).multiply_constant_assign
                (decomp p.2).2))
          acc) := by
  induction ms with
  | nil => intro i acc h; simp [lwe.keyswitchLoop]
  | cons m ms ih =>
    intro i acc h
    simp only [List.length_cons] at h
    have hb : ELL * i + 1 < ksk.length := by simp only [ELL] at h ⊢; omega
    rw [lwe.keyswitchLoop, if_pos hb, List.enumFrom_cons, List.foldl_cons]
    exact ih (i + 1) _ (by simp only [ELL] at h ⊢; omega)

/-- C4: `keyswitch` computes exactly the fold the specification states:
from the all-zero-mask ciphertext carrying `ct.body`, each source
coordinate's two gadget digits scale `ksk[ELL*i]` and `ksk[ELL*i+1]`
(via `multiply_constant_assign`) and are subtracted from the running
result; with a well-sized key-switching key no index panics (the result
is `some _`).  The input ciphertext is a value and is left unchanged. -/
theorem lwe_keyswitch_eq_spec (decomp : Nat → Nat × Nat)
    (c : lwe.LweCiphertext) (ksk : List lwe.LweCiphertext)
    (h : ksk.length = ELL * c.mask.length) :
    c.keyswitch decomp ksk = some (lwe.keyswitchSpec decomp c ksk) := by
  unfold lwe.LweCiphertext.keyswitch lwe.keyswitchSpec
  rw [List.enum]
  exact keyswitchLoop_eq_foldl decomp ksk c.mask 0 _ (by omega)

theorem lwe_keyswitch_eq_spec_witness :
    ([lwe.LweCiphertext.mk [1] 2, lwe.LweCiphertext.mk [3] 4].length =
        ELL * (lwe.LweCiphertext.mk [5] 7).mask.length) ∧
      (lwe.LweCiphertext.mk [5] 7).keyswitch
          (fun v => (v >>> 56 % 256, v >>> 48 % 256))
          [lwe.LweCiphertext.mk [1] 2, lwe.LweCiphertext.mk [3] 4] =
        some (lwe.keyswitchSpec (fun v => (v >>> 56 % 256, v >>> 48 % 256))
          (lwe.LweCiphertext.mk [5] 7)
          [lwe.LweCiphertext.mk [1] 2, lwe.LweCiphertext.mk [3] 4]) :=
  ⟨by decide,
    lwe_keyswitch_eq_spec (fun v => (v >>> 56 % 256, v >>> 48 % 256))
      (lwe.LweCiphertext.mk [5] 7)
      [lwe.LweCiphertext.mk [1] 2, lwe.LweCiphertext.mk [3] 4] (by decide)⟩

namespace lwe

/-- Embeds `lwe_keygen`: each key entry is drawn uniformly from `0..=1`; the
random draws are passed in as `r`, reduced to a bit. -/
def lwe_keygen (r : Nat → Nat) : List Nat :=
  (List.range LWE_DIM).map fun i => r i % 2

/-- Embeds `compute_ksk`: for every source coordinate `i` (outer loop) and digit
index `j in 0..ELL` (inner loop), encrypts `sk1[i] << (40 + 8*(j+1))`
under `sk2` and appends it.  `rand i j` supplies the mask draw and noise
sample consumed by that entry's encryption. -/
def compute_ksk (sk1 sk2 : List Nat) (rand : Nat → Nat → List Nat × Int) :
    List LweCiphertext :=
  ((List.range sk1.length).map fun i =>
    (List.range ELL).map fun j =>
      LweCiphertext.encrypt (((sk1.getD i 0) <<< (40 + 8 * (j + 1))) % M) sk2
        (rand i j).1 (rand i j).2).flatten

end lwe

lemma join_getD_uniform {α : Type _} (c : Nat) (L : List (List α)) (d : α) :
    ∀ (i j : Nat), (∀ x ∈ L, x.length = c) → j < c → i < L.length →
      L.flatten.getD (c * i + j) d = (L.getD i []).getD j d := by
  induction L with
  | nil => intro i j _ _ hi; simp at hi
  | cons x L ih =>
    intro i j hL hj hi
    have hx : x.length = c := hL x (by simp)
    cases i with
    | zero =>
      simp only [Nat.mul_zero, Nat.zero_add, List.flatten_cons]
      rw [List.getD_append _ _ _ _ (by omega), List.getD_cons_zero]
    | succ i' =>
      rw [List.flatten_cons, List.getD_append_right _ _ _ _ (by nlinarith), hx]
      have harith : c * (i' + 1) + j - c = c * i' + j := by
        have : c * (i' + 1) = c * i' + c := by ring
        omega
      rw [harith, List.getD_cons_succ]
      exact ih i' j (fun y hy => hL y (by simp [hy])) hj (by simpa using hi)

lemma compute_ksk_getD (sk1 sk2 : List Nat) (rand : Nat → Nat → List Nat × Int)
    (i j : Nat) (hi : i < sk1.length) (hj : j < ELL) :
    (lwe.compute_ksk sk1 sk2 rand).getD (ELL * i + j) (lwe.LweCiphertext.mk [] 0) =
      lwe.LweCiphertext.encrypt (((sk1.getD i 0) <<< (40 + 8 * (j + 1))) % M) sk2
        (rand i j).1 (rand i j).2 := by
  unfold lwe.compute_ksk
  rw [join_getD_uniform ELL _ _ i j (by intro x hx; simp at hx; obtain ⟨t, _, rfl⟩ := hx; simp)
    hj (by simpa using hi)]
  simp [List.getD_eq_getElem?_getD, List.getElem?_map, List.getElem?_range, hi, hj]

/-- C5: `compute_ksk` returns exactly `ELL` ciphertexts per source
coordinate, ordered by source coordinate (outer) then digit index
(inner); the entry at position `ELL*i + j` is the LWE encryption, under
the destination key and with that entry's own randomness, of the
plaintext `sk1[i] << (40 + 8*(j+1))`. -/
theorem lwe_compute_ksk_spec (sk1 sk2 : List Nat) (rand : Nat → Nat → List Nat × Int)
    (i j : Nat) (hi : i < sk1.length) (hj : j < ELL) :
    (lwe.compute_ksk sk1 sk2 rand).length = sk1.length * ELL ∧
      (lwe.compute_ksk sk1 sk2 rand).getD (ELL * i + j) (lwe.LweCiphertext.mk [] 0) =
        lwe.LweCiphertext.encrypt (((sk1.getD i 0) <<< (40 + 8 * (j + 1))) % M) sk2
          (rand i j).1 (rand i j).2 := by
  refine ⟨?_, compute_ksk_getD sk1 sk2 rand i j hi hj⟩
  unfold lwe.compute_ksk
  rw [List.length_flatten, List.map_map]
  have hcomp : (List.length ∘ fun t =>
      (List.range ELL).map fun j =>
        lwe.LweCiphertext.encrypt (((sk1.getD t 0) <<< (40 + 8 * (j + 1))) % M) sk2
          (rand t j).1 (rand t j).2) = fun _ => ELL := by
    funext t
    simp [Function.comp]
  rw [hcomp, List.map_const', List.sum_replicate, smul_eq_mul, List.length_range,
    Nat.mul_comm]

theorem lwe_compute_ksk_spec_witness :
    (1 < [1, 0].length ∧ 1 < ELL) ∧
      (lwe.compute_ksk [1, 0] [1] fun _ _ => ([3], 2)).length = [1, 0].length * ELL ∧
      (lwe.compute_ksk [1, 0] [1] fun _ _ => ([3], 2)).getD (ELL * 1 + 1)
          (lwe.LweCiphertext.mk [] 0) =
        lwe.LweCiphertext.encrypt ((([1, 0].getD 1 0) <<< (40 + 8 * (1 + 1))) % M) [1]
          ((fun (_ _ : Nat) => (([3] : List Nat), (2 : Int))) 1 1).1
          ((fun (_ _ : Nat) => (([3] : List Nat), (2 : Int))) 1 1).2 :=
  ⟨⟨by decide, by decide⟩,
    lwe_compute_ksk_spec [1, 0] [1] (fun _ _ => ([3], 2)) 1 1 (by decide) (by decide)⟩

/-- C6 counterexample: with source key `[1]`, destination key `[0]` and
zero randomness, entry `2*0 + 0` of the key-switching key is the
encryption of `1 << 48` (body `2^48`), not of `1 * B^(0+1) = 2^8` as the
claim states: the claim omits the `2^40` encoding offset. -/
theorem lwe_compute_ksk_gadget_counterexample :
    ¬ ((lwe.compute_ksk [1] [0] fun _ _ => ([0], 0)).getD (2 * 0 + 0)
        (lwe.LweCiphertext.mk [] 0) =
      lwe.LweCiphertext.encrypt ((1 * (2 ^ 8) ^ (0 + 1)) % M) [0]
        ((fun (_ _ : Nat) => (([0] : List Nat), (0 : Int))) 0 0).1
        ((fun (_ _ : Nat) => (([0] : List Nat), (0 : Int))) 0 0).2) := by
  decide

/-- C6 (amended): entry `ELL*i + d` of the key-switching key is the
encryption, under the destination key and with that entry's randomness,
of `sk1[i] * 2^40 * B^(d+1)` with gadget base `B = 2^8` — the source-key
bit shifted left by `40 + 8*(d+1)` bits (the spec's §4.1 offset), not by
`8*(d+1)` alone. -/
theorem lwe_compute_ksk_gadget_amended (sk1 sk2 : List Nat)
    (rand : Nat → Nat → List Nat × Int) (i d : Nat)
    (hi : i < sk1.length) (hd : d < ELL) :
    (lwe.compute_ksk sk1 sk2 rand).getD (ELL * i + d) (lwe.LweCiphertext.mk [] 0) =
      lwe.LweCiphertext.encrypt ((sk1.getD i 0 * 2 ^ 40 * (2 ^ 8) ^ (d + 1)) % M) sk2
        (rand i d).1 (rand i d).2 := by
  rw [compute_ksk_getD sk1 sk2 rand i d hi hd]
  have : (sk1.getD i 0) <<< (40 + 8 * (d + 1)) =
      sk1.getD i 0 * 2 ^ 40 * (2 ^ 8) ^ (d + 1) := by
    rw [Nat.shiftLeft_eq, pow_add, ← pow_mul, Nat.mul_assoc]
  rw [this]

theorem lwe_compute_ksk_gadget_amended_witness :
    (0 < [1].length ∧ 0 < ELL) ∧
      (lwe.compute_ksk [1] [0] fun _ _ => ([0], 0)).getD (ELL * 0 + 0)
          (lwe.LweCiphertext.mk [] 0) =
        lwe.LweCiphertext.encrypt (([1].getD 0 0 * 2 ^ 40 * (2 ^ 8) ^ (0 + 1)) % M) [0]
          ((fun (_ _ : Nat) => (([0] : List Nat), (0 : Int))) 0 0).1
          ((fun (_ _ : Nat) => (([0] : List Nat), (0 : Int))) 0 0).2 :=
  ⟨⟨by decide, by decide⟩,
    lwe_compute_ksk_gadget_amended [1] [0] (fun _ _ => ([0], 0)) 0 0 (by decide)
      (by decide)⟩

/-- The sum of the mask entries at positions where the secret key bit is
exactly 1 (the coordinates the `decrypt_modswitched` loop accumulates). -/
def selSum (mask sk : List Nat) : Nat :=
  (((mask.zip sk).filter fun p => p.2 == 1).map Prod.fst).sum

lemma modswitched_foldl_selSum (l : List (Nat × Nat)) :
    ∀ a, a < 2 * LWE_DIM →
      (l.foldl (fun acc p => if p.2 == 1 then (acc + p.1) % (2 * LWE_DIM) else acc)
          a) % (2 * LWE_DIM) =
        (a + ((l.filter fun p => p.2 == 1).map Prod.fst).sum) % (2 * LWE_DIM) ∧
      (l.foldl (fun acc p => if p.2 == 1 then (acc + p.1) % (2 * LWE_DIM) else acc)
          a) < 2 * LWE_DIM := by
  induction l with
  | nil =>
    intro a ha
    simp only [List.foldl_nil, List.filter_nil, List.map_nil, List.sum_nil,
      Nat.add_zero]
    exact ⟨trivial, ha⟩
  | cons q l ih =>
    intro a ha
    rw [List.foldl_cons, List.filter_cons]
    by_cases hq : q.2 = 1
    · have hq' : (q.2 == 1) = true := by simp [hq]
      simp only [hq', if_true, List.map_cons, List.sum_cons]
      have hlt : (a + q.1) % (2 * LWE_DIM) < 2 * LWE_DIM :=
        Nat.mod_lt _ (by norm_num [LWE_DIM])
      obtain ⟨h1, h2⟩ := ih ((a + q.1) % (2 * LWE_DIM)) hlt
      refine ⟨?_, h2⟩
      rw [h1]
      simp only [LWE_DIM]
      omega
    · have hq' : (q.2 == 1) = false := by simp [hq]
      simp only [hq', if_false, Bool.false_eq_true]
      exact ih a ha

/-- C7: for a binary secret key, `decrypt_modswitched` returns
`(body − Σ_{sk[i]=1} mask[i]) mod 2*LWE_DIM` — the dot product being
accumulated modulo `2*LWE_DIM` and the wrapping subtraction reduced
modulo `2*LWE_DIM` — and the result is always below `2*LWE_DIM`. -/
theorem lwe_decrypt_modswitched_spec (c : lwe.LweCiphertext) (sk : List Nat)
    (hsk : ∀ s ∈ sk, s = 0 ∨ s = 1)
    (hm : c.mask.length = LWE_DIM) (hs : sk.length = LWE_DIM) :
    c.decrypt_modswitched sk =
      ((((c.body : Int) - (selSum c.mask sk : Int)) % ((2 * LWE_DIM : Nat) : Int)).toNat) ∧
      c.decrypt_modswitched sk < 2 * LWE_DIM := by
  obtain ⟨h1, h2⟩ := modswitched_foldl_selSum (c.mask.zip sk) 0 (by norm_num [LWE_DIM])
  rw [Nat.zero_add] at h1
  unfold lwe.LweCiphertext.decrypt_modswitched wsub selSum at *
  set D := (c.mask.zip sk).foldl
    (fun acc p => if p.2 == 1 then (acc + p.1) % (2 * LWE_DIM) else acc) 0 with hD
  set S := (((c.mask.zip sk).filter fun p => p.2 == 1).map Prod.fst).sum with hS
  rw [Nat.mod_mod_of_dvd _ (by norm_num [M, LWE_DIM])]
  simp only [M, LWE_DIM] at *
  omega

theorem lwe_decrypt_modswitched_spec_witness :
    ((∀ s ∈ List.replicate 1024 1, s = 0 ∨ s = 1) ∧
        (List.replicate 1024 (5 : Nat)).length = LWE_DIM ∧
        (List.replicate 1024 (1 : Nat)).length = LWE_DIM) ∧
      (lwe.LweCiphertext.mk (List.replicate 1024 5) 7).decrypt_modswitched
          (List.replicate 1024 1) =
        ((((7 : Nat) : Int) -
            (selSum (List.replicate 1024 5) (List.replicate 1024 1) : Int)) %
          ((2 * LWE_DIM : Nat) : Int)).toNat ∧
      (lwe.LweCiphertext.mk (List.replicate 1024 5) 7).decrypt_modswitched
          (List.replicate 1024 1) < 2 * LWE_DIM := by
  have hsk : ∀ s ∈ List.replicate 1024 (1 : Nat), s = 0 ∨ s = 1 := by
    intro s hs
    rw [List.eq_of_mem_replicate hs]
    right
    rfl
  have h := lwe_decrypt_modswitched_spec
    (lwe.LweCiphertext.mk (List.replicate 1024 5) 7) (List.replicate 1024 1) hsk
    (by rw [List.length_replicate]; rfl) (by rw [List.length_replicate]; rfl)
  exact ⟨⟨hsk, by rw [List.length_replicate]; rfl, by rw [List.length_replicate]; rfl⟩, h.1, h.2⟩

/-- The constant `pub const N: usize = 512` (`src/lib.rs`), the ring dimension. -/
def N : Nat := 512

namespace glwe

/-- Modelled from the spec: the ring element type `ResiduePoly`
(`crate::poly`, an external collaborator not in this source slice): a
degree-`N` polynomial held as `N` coefficients, each a 64-bit integer
with native wraparound. -/
structure ResiduePoly where
  coefs : List Nat
  deriving Repr, DecidableEq

/-- Modelled from the spec: `ResiduePoly::sub` is the coefficientwise
inverse of ring addition, i.e. wrapping subtraction on each coefficient. -/
def ResiduePoly.sub (a b : ResiduePoly) : ResiduePoly :=
  ⟨List.zipWith wsub a.coefs b.coefs⟩

/-- Modelled from the spec: `ResiduePoly::add_constant_assign` adds its
argument to the ring element's constant coefficient only. -/
def ResiduePoly.add_constant_assign (a : ResiduePoly) (c : Nat) : ResiduePoly :=
  ⟨a.coefs.modifyHead fun x => wadd x c⟩

/-- Modelled from the spec: the ring/module dimension `k` (declared
outside this slice); this design only supports `k = 1`. -/
def k : Nat := 1

/-- The type `SecretKey { polys: [ResiduePoly; k] }` from `src/glwe.rs`. -/
structure SecretKey where
  polys : List ResiduePoly
  deriving Repr, DecidableEq

/-- The type `GlweCiphertext { mask: [ResiduePoly; k], body: ResiduePoly }`. -/
structure GlweCiphertext where
  mask : List ResiduePoly
  body : ResiduePoly
  deriving Repr, DecidableEq

/-- Embeds `GlweCiphertext::encrypt` (correct for `k = 1`, as the source notes):
body is `mask[0] · sk.polys[0]` (ring multiplication via the external
collaborator `mulFn`) with `mu ⊞ e` added to the constant coefficient.
The mask draw `maskPoly` and noise sample `e` are passed explicitly. -/
def GlweCiphertext.encrypt (mulFn : ResiduePoly → ResiduePoly → ResiduePoly)
    (mu : Nat) (sk : SecretKey) (maskPoly : ResiduePoly) (e : Int) : GlweCiphertext :=
  let muStar := wrapAddSigned mu e
  let body := (mulFn maskPoly (sk.polys.getD 0 ⟨[]⟩)).add_constant_assign muStar
  { mask := [maskPoly], body := body }

/-- Embeds `GlweCiphertext::decrypt`: the constant coefficient of
`body − mask[0]·sk.polys[0]`. -/
def GlweCiphertext.decrypt (mulFn : ResiduePoly → ResiduePoly → ResiduePoly)
    (c : GlweCiphertext) (sk : SecretKey) : Nat :=
  ((c.body.sub (mulFn (c.mask.getD 0 ⟨[]⟩) (sk.polys.getD 0 ⟨[]⟩))).coefs).getD 0 0

end glwe

/-- C8: GLWE decryption inverts encryption up to the noise term at ring
dimension `k = 1`: with the ring collaborator's `sub` the coefficientwise
inverse of addition and `add_constant_assign` touching only the constant
coefficient, `decrypt (encrypt mu sk) sk = mu ⊞ e` for every ring
multiplication `mulFn` returning an `N`-coefficient element, every
secret key, mask draw and noise sample. -/
theorem glwe_decrypt_encrypt (mulFn : glwe.ResiduePoly → glwe.ResiduePoly → glwe.ResiduePoly)
    (mu : Nat) (sk : glwe.SecretKey) (maskPoly : glwe.ResiduePoly) (e : Int)
    (hsk : sk.polys.length = glwe.k)
    (hmul : (mulFn maskPoly (sk.polys.getD 0 ⟨[]⟩)).coefs.length = N) :
    (glwe.GlweCiphertext.encrypt mulFn mu sk maskPoly e).decrypt mulFn sk =
      wrapAddSigned mu e := by
  have hw := wrapAddSigned_lt mu e
  unfold glwe.GlweCiphertext.encrypt glwe.GlweCiphertext.decrypt
  simp only [List.getD_cons_zero]
  set P := mulFn maskPoly (sk.polys.getD 0 ⟨[]⟩) with hP
  rcases hC : P.coefs with _ | ⟨x, xs⟩
  · rw [hC] at hmul
    simp [N] at hmul
  · unfold glwe.ResiduePoly.add_constant_assign glwe.ResiduePoly.sub
    rw [hC]
    simp only [List.modifyHead_cons, List.zipWith_cons_cons, List.getD_cons_zero]
    generalize wrapAddSigned mu e = w at *
    simp only [wadd, wsub, M] at *
    omega

theorem glwe_decrypt_encrypt_witness :
    ((glwe.SecretKey.mk [glwe.ResiduePoly.mk (List.replicate 512 1)]).polys.length =
        glwe.k ∧
      ((fun (_ _ : glwe.ResiduePoly) =>
          glwe.ResiduePoly.mk (List.replicate 512 0))
        (glwe.ResiduePoly.mk (List.replicate 512 2))
        ((glwe.SecretKey.mk
          [glwe.ResiduePoly.mk (List.replicate 512 1)]).polys.getD 0
            ⟨[]⟩)).coefs.length = N) ∧
      (glwe.GlweCiphertext.encrypt
          (fun _ _ => glwe.ResiduePoly.mk (List.replicate 512 0)) 9
          (glwe.SecretKey.mk [glwe.ResiduePoly.mk (List.replicate 512 1)])
          (glwe.ResiduePoly.mk (List.replicate 512 2)) (-4)).decrypt
          (fun _ _ => glwe.ResiduePoly.mk (List.replicate 512 0))
          (glwe.SecretKey.mk [glwe.ResiduePoly.mk (List.replicate 512 1)]) =
        wrapAddSigned 9 (-4) :=
  ⟨⟨rfl, by rw [List.length_replicate]; rfl⟩,
    glwe_decrypt_encrypt (fun _ _ => glwe.ResiduePoly.mk (List.replicate 512 0)) 9
      (glwe.SecretKey.mk [glwe.ResiduePoly.mk (List.replicate 512 1)])
      (glwe.ResiduePoly.mk (List.replicate 512 2)) (-4) rfl
      (by rw [List.length_replicate]; rfl)⟩

namespace lib

/-- The constant `pub const P: u8 = 16` (`src/lib.rs`), the plaintext alphabet size. -/
def P : Nat := 16

/-- The constant `pub const Q: u8 = 64` (`src/lib.rs`), the coarse ciphertext modulus. -/
def Q : Nat := 64

/-- Embeds `encode` in `src/lib.rs`: asserts `msg < P` (a process-terminating
assertion, embedded as `none`), else returns `msg * (Q / P)`. -/
def encode (msg : Nat) : Option Nat :=
  if msg < P then some (msg * (Q / P)) else none

/-- Embeds `decode` in `src/lib.rs`: asserts `mu < Q`, else returns
`(mu * P) / Q` (computed in `u16`, which cannot overflow). -/
def decode (mu : Nat) : Option Nat :=
  if mu < Q then some ((mu * P) / Q) else none

end lib

/-- C9: the coarse plaintext-domain pair checks its ranges and is
otherwise the stated arithmetic: `encode msg` fails (fatal assertion,
here `none`) iff `msg ≥ 16` and otherwise yields `msg * 4`; `decode mu`
fails iff `mu ≥ 64` and otherwise yields `(mu * 16) / 64`; and
`decode (encode m) = m` for every `m < 16`. -/
theorem lib_encode_decode_spec (msg mu m : Nat) :
    (lib.encode msg = none ↔ 16 ≤ msg) ∧
      (msg < 16 → lib.encode msg = some (msg * 4)) ∧
      (lib.decode mu = none ↔ 64 ≤ mu) ∧
      (mu < 64 → lib.decode mu = some ((mu * 16) / 64)) ∧
      (m < 16 → (lib.encode m).bind lib.decode = some m) := by
  refine ⟨?_, ?_, ?_, ?_, ?_⟩
  · simp only [lib.encode, lib.P, lib.Q]
    split <;> simp <;> omega
  · intro h
    simp only [lib.encode, lib.P, lib.Q, if_pos h]
  · simp only [lib.decode, lib.P, lib.Q]
    split <;> simp <;> omega
  · intro h
    simp only [lib.decode, lib.P, lib.Q, if_pos h]
  · intro h
    have h16 : (64 : Nat) / 16 = 4 := by norm_num
    simp only [lib.encode, lib.decode, lib.P, lib.Q, h16, if_pos h]
    rw [Option.some_bind, if_pos (by omega)]
    simp only [Option.some_inj]
    omega

theorem lib_encode_decode_spec_witness :
    (3 < 16) ∧ lib.encode 3 = some (3 * 4) ∧ (lib.encode 3).bind lib.decode = some 3 :=
  ⟨by decide, (lib_encode_decode_spec 3 0 3).2.1 (by decide),
    (lib_encode_decode_spec 3 0 3).2.2.2.2 (by decide)⟩

/-- C10: the per-coordinate secret-key products in `encrypt`/`decrypt`
are unchecked `u64` multiplications; `lwe_keygen` only produces bits, and
for a binary secret key each product is `0` or the mask entry, hence
stays below `2^64` — the multiplication can never overflow (panic), so
both operations are total on such inputs. -/
theorem lwe_dot_products_no_overflow (sk mask : List Nat) (r : Nat → Nat)
    (hsk : ∀ s ∈ sk, s = 0 ∨ s = 1) (hmask : ∀ a ∈ mask, a < M) :
    (∀ s ∈ lwe.lwe_keygen r, s = 0 ∨ s = 1) ∧
      (∀ p ∈ mask.zip sk, (p.1 * p.2 = 0 ∨ p.1 * p.2 = p.1) ∧ p.1 * p.2 < M) ∧
      ∀ t ∈ lwe.dotProdTerms mask sk, t < M := by
  have hzip : ∀ p ∈ mask.zip sk, (p.1 * p.2 = 0 ∨ p.1 * p.2 = p.1) ∧ p.1 * p.2 < M := by
    intro p hp
    obtain ⟨h1, h2⟩ := List.of_mem_zip hp
    rcases hsk p.2 h2 with h | h <;> rw [h]
    · exact ⟨Or.inl (Nat.mul_zero _), by have := M_pos; omega⟩
    · exact ⟨Or.inr (Nat.mul_one _), by have := hmask p.1 h1; omega⟩
  refine ⟨?_, hzip, ?_⟩
  · intro s hs
    unfold lwe.lwe_keygen at hs
    simp only [List.mem_map] at hs
    obtain ⟨i, _, rfl⟩ := hs
    omega
  · intro t ht
    unfold lwe.dotProdTerms at ht
    simp only [List.mem_map] at ht
    obtain ⟨p, hp, rfl⟩ := ht
    exact (hzip p hp).2

theorem lwe_dot_products_no_overflow_witness :
    ((∀ s ∈ [1, 0], s = 0 ∨ s = 1) ∧ (∀ a ∈ [5, 9], a < M)) ∧
      (∀ s ∈ lwe.lwe_keygen (fun i => i), s = 0 ∨ s = 1) ∧
      (∀ p ∈ [(5, 1), (9, 0)], ((p : Nat × Nat).1 * p.2 = 0 ∨ p.1 * p.2 = p.1) ∧
        p.1 * p.2 < M) ∧
      ∀ t ∈ lwe.dotProdTerms [5, 9] [1, 0], t < M := by
  have h := lwe_dot_products_no_overflow [1, 0] [5, 9] (fun i => i) (by decide)
    (by decide)
  exact ⟨⟨by decide, by decide⟩, h.1, h.2.1, h.2.2⟩
